import Mathlib

/-!
Verification of the interval-algebra core of the `nanofab-cli` repository
(`src/schedule.rs`): the `TimeSlot`/`TimeTable` data model, the tri-state
comparison `compare_datetime`, the in-place subtraction algorithm
`subtract_timeslot` (modelled faithfully, including its reverse index loop,
`Vec::remove`/`Vec::insert` panic behaviour and the duplicated `remove` in
the `(Some, None)` / `Contains` branch), inversion, the duration filter and
the policy operations `subtract_weekends` / `subtract_after_hours`.

Timestamps (`chrono::NaiveDateTime`) are modelled as integers: the code only
uses their linear order, equality, and day-shift/duration arithmetic, all of
which the integers model faithfully.  Fallible operations (Rust panics such
as out-of-bounds `Vec::remove` or `Option::unwrap` on `None`) are modelled
with `Option`: `none` is a panic.
-/

set_option autoImplicit false

namespace Nanofab

/-- A `chrono::NaiveDateTime`, modelled by its position on the time line. -/
abbrev Time := Int

/-- `schedule.rs` `TimeSlot<M>`: an interval with optional bounds and metadata.
The Rust field `end` is called `endt` here because `end` is a Lean keyword. -/
structure TimeSlot (M : Type) where
  start : Option Time
  endt : Option Time
  meta : M
deriving Repr, DecidableEq

/-- `schedule.rs` `RelTime`: position of an instant relative to a slot. -/
inductive RelTime where
  | Before
  | Contains
  | After
deriving Repr, DecidableEq

variable {M N : Type}

/-- `TimeSlot::duration`: `end - start` when both bounds are present. -/
def TimeSlot.duration (ts : TimeSlot M) : Option Int :=
  match ts.start, ts.endt with
  | some s, some e => some (e - s)
  | _, _ => none

/-- `TimeSlot::compare_datetime` from `schedule.rs`, lines 44-72. -/
def TimeSlot.compare_datetime (ts : TimeSlot M) (datetime : Time) : RelTime :=
  match ts.start, ts.endt with
  | none, none => .Contains
  | none, some e => if datetime ≤ e then .Contains else .After
  | some s, none => if s ≤ datetime then .Contains else .Before
  | some s, some e =>
      if s ≤ datetime ∧ datetime ≤ e then .Contains
      else if datetime < s then .Before
      else .After

/-- `Vec::remove(i)`: returns the removed element and the remaining list,
`none` (panic) when `i` is out of bounds. -/
def removeAt : List (TimeSlot M) → Nat → Option (TimeSlot M × List (TimeSlot M))
  | [], _ => none
  | x :: xs, 0 => some (x, xs)
  | x :: xs, n + 1 => (removeAt xs n).map fun p => (p.1, x :: p.2)

/-- `Vec::insert(i, a)`: `none` (panic) when `i > len`. -/
def insertAt : List (TimeSlot M) → Nat → TimeSlot M → Option (List (TimeSlot M))
  | l, 0, a => some (a :: l)
  | [], _ + 1, _ => none
  | x :: xs, n + 1, a => (insertAt xs n a).map fun l2 => x :: l2

/-- The Rust loop `for i in (0..len).rev()`: runs `step` on indices
`n-1, n-2, ..., 0`, propagating a panic. -/
def revLoop (step : List (TimeSlot M) → Nat → Option (List (TimeSlot M))) :
    List (TimeSlot M) → Nat → Option (List (TimeSlot M))
  | l, 0 => some l
  | l, n + 1 => (step l n).bind fun l2 => revLoop step l2 n

namespace TimeTable

/-- One iteration of the `(None, Some(other_end))` arm of
`TimeTable::subtract_timeslot` (`schedule.rs` lines 192-209). -/
def stepNE (other_end : Time) (l : List (TimeSlot M)) (i : Nat) :
    Option (List (TimeSlot M)) :=
  l[i]?.bind fun cur =>
    match cur.compare_datetime other_end with
    | .Before => some l
    | .Contains =>
        (removeAt l i).bind fun cl =>
          let new_start := some other_end
          let new_end := cl.1.endt
          if new_end ≠ new_start then insertAt cl.2 i ⟨new_start, new_end, cl.1.meta⟩
          else some cl.2
    | .After => (removeAt l i).map Prod.snd

/-- One iteration of the `(Some(other_start), None)` arm
(`schedule.rs` lines 211-229).  Note the second `remove(i)` in the
`Contains` branch (line 221), reproduced faithfully. -/
def stepSN (other_start : Time) (l : List (TimeSlot M)) (i : Nat) :
    Option (List (TimeSlot M)) :=
  l[i]?.bind fun cur =>
    match cur.compare_datetime other_start with
    | .Before => (removeAt l i).map Prod.snd
    | .Contains =>
        (removeAt l i).bind fun cl =>
          let new_start := cl.1.start
          let new_end := some other_start
          (removeAt cl.2 i).bind fun cl2 =>
            if new_end ≠ new_start then insertAt cl2.2 i ⟨new_start, new_end, cl.1.meta⟩
            else some cl2.2
    | .After => some l

/-- One iteration of the `(Some(other_start), Some(other_end))` arm
(`schedule.rs` lines 231-279).  The wildcard arm is `unreachable!`,
modelled as a panic. -/
def stepSS (other_start other_end : Time) (l : List (TimeSlot M)) (i : Nat) :
    Option (List (TimeSlot M)) :=
  l[i]?.bind fun cur =>
    match cur.compare_datetime other_start, cur.compare_datetime other_end with
    | .Before, .Before => some l
    | .After, .After => some l
    | .Before, .After => (removeAt l i).map Prod.snd
    | .Before, .Contains =>
        (removeAt l i).bind fun cl =>
          let new_start := some other_end
          let new_end := cl.1.endt
          if new_end ≠ new_start then insertAt cl.2 i ⟨new_start, new_end, cl.1.meta⟩
          else some cl.2
    | .Contains, .After =>
        (removeAt l i).bind fun cl =>
          let new_start := cl.1.start
          let new_end := some other_start
          if new_end ≠ new_start then insertAt cl.2 i ⟨new_start, new_end, cl.1.meta⟩
          else some cl.2
    | .Contains, .Contains =>
        (removeAt l i).bind fun cl =>
          (if cl.1.endt ≠ some other_end then
              insertAt cl.2 i ⟨some other_end, cl.1.endt, cl.1.meta⟩
            else some cl.2).bind fun l2 =>
          if (some other_start : Option Time) ≠ cl.1.start then
            insertAt l2 i ⟨cl.1.start, some other_start, cl.1.meta⟩
          else some l2
    | _, _ => none

/-- `TimeTable::subtract_timeslot` (`schedule.rs` lines 186-282), acting on
the `timeslots` vector.  The subtrahend's metadata type is arbitrary. -/
def subtract_timeslot (l : List (TimeSlot M)) (timeslot : TimeSlot N) :
    Option (List (TimeSlot M)) :=
  match timeslot.start, timeslot.endt with
  | none, none => some []
  | none, some other_end => revLoop (stepNE other_end) l l.length
  | some other_start, none => revLoop (stepSN other_start) l l.length
  | some other_start, some other_end => revLoop (stepSS other_start other_end) l l.length

/-- `TimeTable::subtract_less_duration` (`schedule.rs` lines 93-102). -/
def subtract_less_duration (duration : Time) (l : List (TimeSlot M)) :
    List (TimeSlot M) :=
  l.filter fun ts =>
    match ts.duration with
    | some dur => decide (duration ≤ dur)
    | none => true

/-- The `tuple_windows` loop of `TimeTable::inverted`
(`schedule.rs` lines 113-117): one gap per adjacent pair with distinct
touching bounds. -/
def windowGaps : List (TimeSlot M) → List (TimeSlot Unit)
  | a :: b :: rest =>
      (if a.endt ≠ b.start then [(⟨a.endt, b.start, ()⟩ : TimeSlot Unit)] else []) ++
        windowGaps (b :: rest)
  | _ => []

/-- `TimeTable::inverted` (`schedule.rs` lines 103-122). -/
def inverted : List (TimeSlot M) → List (TimeSlot Unit)
  | [] => [⟨none, none, ()⟩]
  | ts :: rest =>
      if rest.isEmpty && ts.start.isNone && ts.endt.isNone then []
      else
        (match ts.start with
          | some dt => [(⟨none, some dt, ()⟩ : TimeSlot Unit)]
          | none => []) ++
        windowGaps (ts :: rest) ++
        (match ((ts :: rest).getLast (List.cons_ne_nil ts rest)).endt with
          | some dt => [(⟨some dt, none, ()⟩ : TimeSlot Unit)]
          | none => [])

/-- Length of a day: `chrono` day-shifts on naive timestamps move the time
line by exactly this amount. -/
def day : Time := 86400

/-- The `last_time` extraction shared by `subtract_weekends` and
`subtract_after_hours` (`schedule.rs` lines 135-143 and 160-168):
`last().unwrap()` then `end` or `start.expect(..)`; `none` is a panic. -/
def lastTime (l : List (TimeSlot M)) : Option Time :=
  l.getLast?.bind fun ts =>
    match ts.endt with
    | some dt => some dt
    | none => ts.start

/-- The `while weekend.start <= last_time` loop of `subtract_weekends`
(`schedule.rs` lines 151-154); the weekend slot is
`(start, start + 2 days)` and advances 7 days per iteration. -/
def weekendLoop (last_time : Time) (l : List (TimeSlot M)) (weekend_start : Time) :
    Option (List (TimeSlot M)) :=
  if hcond : weekend_start ≤ last_time then
    let subtracted := subtract_timeslot l (⟨some weekend_start, some (weekend_start + 2 * day), ()⟩ : TimeSlot Unit)
    match subtracted with
    | none => none
    | some l2 => weekendLoop last_time l2 (weekend_start + 7 * day)
  else some l
termination_by (last_time + 1 - weekend_start).toNat
decreasing_by
  have hb : (0 : Int) < last_time + 1 - weekend_start := by linarith
  rw [Int.toNat_lt_toNat hb]
  simp only [day]
  linarith

/-- `TimeTable::subtract_weekends` (`schedule.rs` lines 131-155).
`saturday_morning` stands for the Saturday-midnight value the code derives
from the external clock (`chrono::Local::now`), an input of the model. -/
def subtract_weekends (saturday_morning : Time) (l : List (TimeSlot M)) :
    Option (List (TimeSlot M)) :=
  (lastTime l).bind fun last_time => weekendLoop last_time l saturday_morning

/-- The `while overnight.start <= last_time` loop of `subtract_after_hours`
(`schedule.rs` lines 181-184); the overnight slot is
`(start, start + 15 hours)` and advances 1 day per iteration. -/
def afterHoursLoop (last_time : Time) (l : List (TimeSlot M)) (overnight_start : Time) :
    Option (List (TimeSlot M)) :=
  if hcond : overnight_start ≤ last_time then
    let subtracted := subtract_timeslot l (⟨some overnight_start, some (overnight_start + 15 * 3600), ()⟩ : TimeSlot Unit)
    match subtracted with
    | none => none
    | some l2 => afterHoursLoop last_time l2 (overnight_start + day)
  else some l
termination_by (last_time + 1 - overnight_start).toNat
decreasing_by
  have hb : (0 : Int) < last_time + 1 - overnight_start := by linarith
  rw [Int.toNat_lt_toNat hb]
  simp only [day]
  linarith

/-- `TimeTable::subtract_after_hours` (`schedule.rs` lines 156-185).
`today_midnight` stands for the midnight-of-today value the code derives
from the external clock; the first overnight slot starts at
`17:00 two days earlier`. -/
def subtract_after_hours (today_midnight : Time) (l : List (TimeSlot M)) :
    Option (List (TimeSlot M)) :=
  (lastTime l).bind fun last_time =>
    afterHoursLoop last_time l (today_midnight + 17 * 3600 - 2 * day)

end TimeTable

/-- Per-slot wellformedness: a stored interval is a nonempty span
(`start < end` when both bounds are present). -/
def slotWF (ts : TimeSlot M) : Bool :=
  match ts.start, ts.endt with
  | some s, some e => decide (s < e)
  | _, _ => true

/-- Adjacent-pair invariant of a valid timetable: the left slot's `end` and
the right slot's `start` are present, and they are ordered
(touching, `a.end = b.start`, permitted). -/
def adjacentWF (a b : TimeSlot M) : Bool :=
  match a.endt, b.start with
  | some ae, some bs => decide (ae ≤ bs)
  | _, _ => false

/-- A valid timetable: every slot is a nonempty span, and consecutive slots
are sorted and pairwise disjoint (unbounded ends only at the outer ends). -/
def Valid (l : List (TimeSlot M)) : Prop :=
  (∀ ts ∈ l, slotWF ts = true) ∧ l.Chain' fun a b => adjacentWF a b = true

/-- Executable version of the sortedness/disjointness chain. -/
def chainWF : List (TimeSlot M) → Bool
  | a :: b :: rest => adjacentWF a b && chainWF (b :: rest)
  | _ => true

theorem chainWF_iff (l : List (TimeSlot M)) :
    l.Chain' (fun a b => adjacentWF a b = true) ↔ chainWF l = true := by
  induction l with
  | nil => simp [chainWF]
  | cons a l ih =>
      rcases l with _ | ⟨b, rest⟩
      · simp [chainWF]
      · rw [List.chain'_cons, chainWF]
        simp only [Bool.and_eq_true]
        exact and_congr_right fun _ => ih

instance (l : List (TimeSlot M)) : Decidable (Valid l) :=
  decidable_of_iff ((∀ ts ∈ l, slotWF ts = true) ∧ chainWF l = true)
    (by unfold Valid; rw [chainWF_iff])


/-! ### Helper lemmas about the vector operations -/

theorem getElem?_append_len (p : List (TimeSlot M)) (a : TimeSlot M) (q : List (TimeSlot M)) :
    (p ++ a :: q)[p.length]? = some a := by
  induction p with
  | nil => simp
  | cons x xs ih => simpa using ih

theorem removeAt_append_len (p : List (TimeSlot M)) (a : TimeSlot M) (q : List (TimeSlot M)) :
    removeAt (p ++ a :: q) p.length = some (a, p ++ q) := by
  induction p with
  | nil => rfl
  | cons x xs ih => simp [removeAt, ih]

theorem removeAt_oob (l : List (TimeSlot M)) (i : Nat) (h : l.length ≤ i) :
    removeAt l i = none := by
  induction l generalizing i with
  | nil => rfl
  | cons x xs ih =>
      cases i with
      | zero => simp at h
      | succ n =>
          have : xs.length ≤ n := by simpa using h
          simp [removeAt, ih n this]

theorem insertAt_append_len (p q : List (TimeSlot M)) (a : TimeSlot M) :
    insertAt (p ++ q) p.length a = some (p ++ a :: q) := by
  induction p with
  | nil => simp [insertAt]
  | cons x xs ih => simp [insertAt, ih]

/-- The reverse-index loop computes an independent per-element rewriting:
if each iteration at index `i` replaces the element there by its fragments,
the loop as a whole maps each element to its fragments. -/
theorem revLoop_spec (step : List (TimeSlot M) → Nat → Option (List (TimeSlot M)))
    (frag : TimeSlot M → List (TimeSlot M)) (P : TimeSlot M → Prop)
    (hstep : ∀ (p : List (TimeSlot M)) (a : TimeSlot M) (q : List (TimeSlot M)),
      P a → step (p ++ a :: q) p.length = some (p ++ (frag a ++ q)))
    (p q : List (TimeSlot M)) (hp : ∀ a ∈ p, P a) :
    revLoop step (p ++ q) p.length = some (p.flatMap frag ++ q) := by
  induction p using List.reverseRecOn generalizing q with
  | nil => simp [revLoop]
  | append_singleton p2 a ih =>
      have hPa : P a := hp a (by simp)
      have hp2 : ∀ x ∈ p2, P x := fun x hx => hp x (by simp [hx])
      have hlen : (p2 ++ [a]).length = p2.length + 1 := by simp
      rw [hlen]
      have hshape : (p2 ++ [a]) ++ q = p2 ++ a :: q := by simp
      rw [hshape]
      show (step (p2 ++ a :: q) p2.length).bind
        (fun l2 => revLoop step l2 p2.length) = _
      rw [hstep p2 a q hPa]
      simp only [Option.some_bind]
      rw [ih (frag a ++ q) hp2]
      simp

/-! ### Characterisations of `compare_datetime` -/

theorem compare_before {ts : TimeSlot M} {t : Time}
    (h : ts.compare_datetime t = .Before) : ∃ s, ts.start = some s ∧ t < s := by
  unfold TimeSlot.compare_datetime at h
  rcases hs : ts.start with _ | s <;> rcases he : ts.endt with _ | e <;>
    rw [hs, he] at h <;> simp only at h
  · cases h
  · split at h <;> cases h
  · refine ⟨s, rfl, ?_⟩
    split at h
    · cases h
    · linarith [not_le.mp (by assumption : ¬ s ≤ t)]
  · refine ⟨s, rfl, ?_⟩
    split at h
    · cases h
    · split at h
      · assumption
      · cases h

theorem compare_after {ts : TimeSlot M} {t : Time}
    (h : ts.compare_datetime t = .After) : ∃ e, ts.endt = some e ∧ e < t := by
  unfold TimeSlot.compare_datetime at h
  rcases hs : ts.start with _ | s <;> rcases he : ts.endt with _ | e <;>
    rw [hs, he] at h <;> simp only at h
  · cases h
  · refine ⟨e, rfl, ?_⟩
    split at h
    · cases h
    · linarith [not_le.mp (by assumption : ¬ t ≤ e)]
  · split at h <;> cases h
  · refine ⟨e, rfl, ?_⟩
    split at h
    · cases h
    · split at h
      · cases h
      · rcases not_and_or.mp (by assumption : ¬ (s ≤ t ∧ t ≤ e)) with hc | hc
        · exact absurd (le_of_not_lt (by assumption)) hc
        · linarith [not_le.mp hc]

theorem compare_contains_start {ts : TimeSlot M} {t : Time}
    (h : ts.compare_datetime t = .Contains) :
    ∀ s, ts.start = some s → s ≤ t := by
  intro s hs
  unfold TimeSlot.compare_datetime at h
  rcases he : ts.endt with _ | e <;> rw [hs, he] at h <;> simp only at h
  · split at h
    · assumption
    · cases h
  · split at h
    · exact (by assumption : s ≤ t ∧ t ≤ e).1
    · split at h <;> cases h

theorem compare_contains_end {ts : TimeSlot M} {t : Time}
    (h : ts.compare_datetime t = .Contains) :
    ∀ e, ts.endt = some e → t ≤ e := by
  intro e he
  unfold TimeSlot.compare_datetime at h
  rcases hs : ts.start with _ | s <;> rw [hs, he] at h <;> simp only at h
  · split at h
    · assumption
    · cases h
  · split at h
    · exact (by assumption : s ≤ t ∧ t ≤ e).2
    · split at h <;> cases h


theorem slotWF_lt {a : TimeSlot M} (h : slotWF a = true) {s e : Time}
    (hs : a.start = some s) (he : a.endt = some e) : s < e := by
  unfold slotWF at h
  rw [hs, he] at h
  simpa using h

/-! ### Spec-side per-element fragment functions -/

/-- The spec's action table for a doubly-bounded subtrahend
`(Some(os), Some(oe))`: how a single stored interval is rewritten,
classified by `(compare(e, os), compare(e, oe))`. -/
def specFragSS (os oe : Time) (e : TimeSlot M) : List (TimeSlot M) :=
  match e.compare_datetime os, e.compare_datetime oe with
  | .Before, .Before => [e]
  | .After, .After => [e]
  | .Before, .After => []
  | .Before, .Contains => if e.endt = some oe then [] else [⟨some oe, e.endt, e.meta⟩]
  | .Contains, .After => if e.start = some os then [] else [⟨e.start, some os, e.meta⟩]
  | .Contains, .Contains =>
      (if e.start = some os then [] else [⟨e.start, some os, e.meta⟩]) ++
      (if e.endt = some oe then [] else [⟨some oe, e.endt, e.meta⟩])
  | _, _ => []

/-- The spec's action table for a subtrahend `(None, Some(oe))`. -/
def specFragNE (oe : Time) (e : TimeSlot M) : List (TimeSlot M) :=
  match e.compare_datetime oe with
  | .Before => [e]
  | .Contains => if e.endt = some oe then [] else [⟨some oe, e.endt, e.meta⟩]
  | .After => []

/-! ### Step lemmas: each loop iteration rewrites exactly the element at
its index -/

theorem stepNE_spec (oe : Time) (p : List (TimeSlot M)) (a : TimeSlot M)
    (q : List (TimeSlot M)) :
    TimeTable.stepNE oe (p ++ a :: q) p.length = some (p ++ (specFragNE oe a ++ q)) := by
  unfold TimeTable.stepNE
  rw [getElem?_append_len]
  simp only [Option.some_bind]
  rcases h1 : a.compare_datetime oe with _ | _ | _
  · simp [specFragNE, h1]
  · rw [removeAt_append_len]
    simp only [Option.some_bind]
    by_cases hc : a.endt = some oe
    · simp [specFragNE, h1, hc]
    · rw [if_pos (show a.endt ≠ some oe from hc), insertAt_append_len]
      simp [specFragNE, h1, hc]
  · rw [removeAt_append_len]
    simp [specFragNE, h1]

theorem stepSS_spec (os oe : Time) (hle : os ≤ oe) (p : List (TimeSlot M))
    (a : TimeSlot M) (hwf : slotWF a = true) (q : List (TimeSlot M)) :
    TimeTable.stepSS os oe (p ++ a :: q) p.length = some (p ++ (specFragSS os oe a ++ q)) := by
  unfold TimeTable.stepSS
  rw [getElem?_append_len]
  simp only [Option.some_bind]
  rcases h1 : a.compare_datetime os with _ | _ | _ <;>
    rcases h2 : a.compare_datetime oe with _ | _ | _
  · -- Before, Before
    simp [specFragSS, h1, h2]
  · -- Before, Contains
    rw [removeAt_append_len]
    simp only [Option.some_bind]
    by_cases hc : a.endt = some oe
    · simp [specFragSS, h1, h2, hc]
    · rw [if_pos (show a.endt ≠ some oe from hc), insertAt_append_len]
      simp [specFragSS, h1, h2, hc]
  · -- Before, After
    rw [removeAt_append_len]
    simp [specFragSS, h1, h2]
  · -- Contains, Before: impossible since os ≤ oe
    exfalso
    obtain ⟨s, hs, hlt⟩ := compare_before h2
    have := compare_contains_start h1 s hs
    linarith
  · -- Contains, Contains
    rw [removeAt_append_len]
    simp only [Option.some_bind]
    by_cases hc2 : a.endt = some oe
    · rw [if_neg (by simpa using hc2)]
      simp only [Option.some_bind]
      by_cases hc1 : a.start = some os
      · rw [if_neg (by simpa [eq_comm] using hc1)]
        simp [specFragSS, h1, h2, hc1, hc2]
      · rw [if_pos (by simpa [eq_comm] using hc1)]
        rw [insertAt_append_len]
        simp [specFragSS, h1, h2, hc1, hc2]
    · rw [if_pos (by simpa using hc2)]
      rw [insertAt_append_len]
      simp only [Option.some_bind]
      by_cases hc1 : a.start = some os
      · rw [if_neg (by simpa [eq_comm] using hc1)]
        simp [specFragSS, h1, h2, hc1, hc2]
      · rw [if_pos (by simpa [eq_comm] using hc1)]
        rw [insertAt_append_len]
        simp [specFragSS, h1, h2, hc1, hc2]
  · -- Contains, After
    rw [removeAt_append_len]
    simp only [Option.some_bind]
    by_cases hc : a.start = some os
    · rw [if_neg (by simpa [eq_comm] using hc)]
      simp [specFragSS, h1, h2, hc]
    · rw [if_pos (by simpa [eq_comm] using hc)]
      rw [insertAt_append_len]
      simp [specFragSS, h1, h2, hc]
  · -- After, Before: impossible for a nonempty span
    exfalso
    obtain ⟨e1, he, hlt1⟩ := compare_after h1
    obtain ⟨s, hs, hlt2⟩ := compare_before h2
    have := slotWF_lt hwf hs he
    linarith
  · -- After, Contains: impossible since os ≤ oe
    exfalso
    obtain ⟨e1, he, hlt1⟩ := compare_after h1
    have := compare_contains_end h2 e1 he
    linarith
  · -- After, After
    simp [specFragSS, h1, h2]

/-! ### Whole-loop characterisations of `subtract_timeslot` -/

theorem subtract_NE_eq (l : List (TimeSlot M)) (oe : Time) (mo : N) :
    TimeTable.subtract_timeslot l (⟨none, some oe, mo⟩ : TimeSlot N) =
      some (l.flatMap (specFragNE oe)) := by
  show revLoop (TimeTable.stepNE oe) l l.length = _
  have h := revLoop_spec (TimeTable.stepNE oe) (specFragNE oe) (fun _ => True)
    (fun p a q _ => stepNE_spec oe p a q) l [] (fun a _ => trivial)
  simpa using h

theorem subtract_SS_eq (l : List (TimeSlot M)) (os oe : Time) (hle : os ≤ oe)
    (hwf : ∀ a ∈ l, slotWF a = true) (mo : N) :
    TimeTable.subtract_timeslot l (⟨some os, some oe, mo⟩ : TimeSlot N) =
      some (l.flatMap (specFragSS os oe)) := by
  show revLoop (TimeTable.stepSS os oe) l l.length = _
  have h := revLoop_spec (TimeTable.stepSS os oe) (specFragSS os oe)
    (fun a => slotWF a = true)
    (fun p a q hw => stepSS_spec os oe hle p a hw q) l [] hwf
  simpa using h

/-- Per-element action of the `(Some(os), None)` arm on elements not
containing `os` (the `Contains` branch panics on valid input). -/
def fragSN (os : Time) (e : TimeSlot M) : List (TimeSlot M) :=
  match e.compare_datetime os with
  | .Before => []
  | .Contains => []
  | .After => [e]

theorem stepSN_spec (os : Time) (p : List (TimeSlot M)) (a : TimeSlot M)
    (hnc : a.compare_datetime os ≠ .Contains) (q : List (TimeSlot M)) :
    TimeTable.stepSN os (p ++ a :: q) p.length = some (p ++ (fragSN os a ++ q)) := by
  unfold TimeTable.stepSN
  rw [getElem?_append_len]
  simp only [Option.some_bind]
  rcases h1 : a.compare_datetime os with _ | _ | _
  · rw [removeAt_append_len]
    simp [fragSN, h1]
  · exact absurd h1 hnc
  · simp [fragSN, h1]

theorem subtract_SN_eq_of_no_contains (l : List (TimeSlot M)) (os : Time)
    (hnc : ∀ a ∈ l, a.compare_datetime os ≠ .Contains) (mo : N) :
    TimeTable.subtract_timeslot l (⟨some os, none, mo⟩ : TimeSlot N) =
      some (l.flatMap (fragSN os)) := by
  show revLoop (TimeTable.stepSN os) l l.length = _
  have h := revLoop_spec (TimeTable.stepSN os) (fragSN os)
    (fun a => a.compare_datetime os ≠ .Contains)
    (fun p a q hn => stepSN_spec os p a hn q) l [] hnc
  simpa using h

/-- The duplicated `remove(i)` of `schedule.rs` line 221 in action: when a
stored interval contains `os` and everything to its right is strictly after
`os` (as in any sorted timetable), the `(Some(os), None)` loop panics. -/
theorem revLoopSN_panic (os : Time) (p : List (TimeSlot M)) (c : TimeSlot M)
    (hc : c.compare_datetime os = .Contains) (s : List (TimeSlot M))
    (hall : ∀ e ∈ s, e.compare_datetime os = .Before) :
    revLoop (TimeTable.stepSN os) (p ++ c :: s) (p ++ c :: s).length = none := by
  induction s using List.reverseRecOn with
  | nil =>
      have hlen : (p ++ c :: ([] : List (TimeSlot M))).length = p.length + 1 := by simp
      rw [hlen]
      show (TimeTable.stepSN os (p ++ c :: []) p.length).bind
        (fun l2 => revLoop (TimeTable.stepSN os) l2 p.length) = none
      unfold TimeTable.stepSN
      rw [getElem?_append_len]
      simp only [Option.some_bind, hc]
      rw [removeAt_append_len]
      simp only [Option.some_bind]
      rw [removeAt_oob (p ++ []) p.length (by simp)]
      rfl
  | append_singleton s2 b ih =>
      have hb : b.compare_datetime os = .Before := hall b (by simp)
      have hs2 : ∀ e ∈ s2, e.compare_datetime os = .Before :=
        fun e he => hall e (by simp [he])
      have hshape : p ++ c :: (s2 ++ [b]) = (p ++ c :: s2) ++ b :: [] := by simp
      have hlen : (p ++ c :: (s2 ++ [b])).length = (p ++ c :: s2).length + 1 := by
        simp
        omega
      rw [hlen, hshape]
      show (TimeTable.stepSN os ((p ++ c :: s2) ++ b :: []) (p ++ c :: s2).length).bind
        (fun l2 => revLoop (TimeTable.stepSN os) l2 (p ++ c :: s2).length) = none
      rw [stepSN_spec os (p ++ c :: s2) b (by simp [hb]) []]
      simp only [Option.some_bind, fragSN, hb, List.nil_append, List.append_nil]
      exact ih hs2

/-! ### The `(Some(os), None)` arm panics on any valid timetable with a
slot containing `os` -/

theorem adjacentWF_elim {a b : TimeSlot M} (h : adjacentWF a b = true) :
    ∃ ae bs, a.endt = some ae ∧ b.start = some bs ∧ ae ≤ bs := by
  unfold adjacentWF at h
  rcases hae : a.endt with _ | ae <;> rcases hbs : b.start with _ | bs <;>
    rw [hae, hbs] at h <;> simp at h
  exact ⟨ae, bs, rfl, rfl, h⟩

theorem compare_of_before {b : TimeSlot M} {bs os : Time}
    (hbs : b.start = some bs) (hlt : os < bs) :
    b.compare_datetime os = .Before := by
  have h1 : ¬ (bs ≤ os) := not_le.mpr hlt
  unfold TimeSlot.compare_datetime
  rw [hbs]
  rcases hbe : b.endt with _ | be
  · simp [h1]
  · simp [h1, hlt]

theorem compare_of_contains {b : TimeSlot M} {bs os : Time}
    (hbs : b.start = some bs) (hle : bs ≤ os)
    (hend : ∀ be, b.endt = some be → os ≤ be) :
    b.compare_datetime os = .Contains := by
  unfold TimeSlot.compare_datetime
  rw [hbs]
  rcases hbe : b.endt with _ | be
  · simp [hle]
  · simp [hle, hend be hbe]

/-- In a sorted, disjoint timetable every slot after one whose span reaches
`os` lies strictly after `os`. -/
theorem chain_before (os : Time) (s : List (TimeSlot M)) :
    ∀ (x : TimeSlot M) (xe : Time), x.endt = some xe → os ≤ xe →
    List.Chain' (fun a b => adjacentWF a b = true) (x :: s) →
    (∀ e ∈ s, slotWF e = true) →
    (∀ e ∈ s, e.compare_datetime os ≠ .Contains) →
    ∀ e ∈ s, e.compare_datetime os = .Before := by
  induction s with
  | nil =>
      intro x xe _ _ _ _ _ e he
      cases he
  | cons b s2 ih =>
      intro x xe hxe hosxe hchain hwf hnc
      obtain ⟨hadj, hchain2⟩ := List.chain'_cons.mp hchain
      obtain ⟨ae, bs, hae, hbs, haebs⟩ := adjacentWF_elim hadj
      have hxeae : xe = ae := by
        rw [hxe] at hae
        exact Option.some.inj hae
      have hosbs : os ≤ bs := by
        rw [hxeae] at hosxe
        linarith
      have hbBefore : b.compare_datetime os = .Before := by
        rcases lt_or_eq_of_le hosbs with hlt | heq
        · exact compare_of_before hbs hlt
        · exfalso
          apply hnc b (by simp)
          apply compare_of_contains hbs (le_of_eq heq.symm)
          intro be hbe
          have hlt2 := slotWF_lt (hwf b (by simp)) hbs hbe
          linarith
      intro e he
      rcases List.mem_cons.mp he with rfl | he2
      · exact hbBefore
      · rcases s2 with _ | ⟨b2, s3⟩
        · cases he2
        · obtain ⟨hadj2, _⟩ := List.chain'_cons.mp hchain2
          obtain ⟨be, b2s, hbe, hb2s, hbeb2s⟩ := adjacentWF_elim hadj2
          have hltbe := slotWF_lt (hwf b (by simp)) hbs hbe
          have hosbe : os ≤ be := by linarith
          exact ih b be hbe hosbe hchain2
            (fun e2 he3 => hwf e2 (by simp [he3]))
            (fun e2 he3 => hnc e2 (by simp [he3])) e he2

theorem exists_last_split {P : TimeSlot M → Prop} [DecidablePred P]
    (l : List (TimeSlot M)) (hex : ∃ a ∈ l, P a) :
    ∃ p c s, l = p ++ c :: s ∧ P c ∧ ∀ e ∈ s, ¬ P e := by
  induction l using List.reverseRecOn with
  | nil => simp at hex
  | append_singleton l2 b ih =>
      by_cases hb : P b
      · exact ⟨l2, b, [], by simp, hb, by simp⟩
      · obtain ⟨a, ha, hPa⟩ := hex
        rcases List.mem_append.mp ha with h2 | h2
        · obtain ⟨p, c, s, rfl, hc2, hs⟩ := ih ⟨a, h2, hPa⟩
          refine ⟨p, c, s ++ [b], by simp, hc2, ?_⟩
          intro e he
          rcases List.mem_append.mp he with h3 | h3
          · exact hs e h3
          · simp at h3
            subst h3
            exact hb
        · simp at h2
          subst h2
          exact absurd hPa hb

/-- On any valid timetable with a slot containing `os`, subtracting
`(Some(os), None)` panics: the duplicated `remove(i)` of `schedule.rs`
line 221 indexes past the end of the shrunk vector. -/
theorem subtract_SN_panic (l : List (TimeSlot M)) (os : Time) (hv : Valid l)
    (hex : ∃ a ∈ l, a.compare_datetime os = RelTime.Contains) (mo : N) :
    TimeTable.subtract_timeslot l (⟨some os, none, mo⟩ : TimeSlot N) = none := by
  obtain ⟨p, c, s, rfl, hc, hs⟩ :=
    exists_last_split (P := fun a => a.compare_datetime os = RelTime.Contains) l hex
  have hallBefore : ∀ e ∈ s, e.compare_datetime os = RelTime.Before := by
    rcases s with _ | ⟨b, s2⟩
    · intro e he
      cases he
    · have hchain : List.Chain' (fun a b => adjacentWF a b = true) (c :: b :: s2) :=
        (List.chain'_append.mp hv.2).2.1
      obtain ⟨hadj, _⟩ := List.chain'_cons.mp hchain
      obtain ⟨ce, bs, hce, hbs, hcebs⟩ := adjacentWF_elim hadj
      have hosce : os ≤ ce := compare_contains_end hc ce hce
      exact chain_before os (b :: s2) c ce hce hosce hchain
        (fun e he => hv.1 e (by simp [he])) hs
  show revLoop (TimeTable.stepSN os) _ _ = none
  exact revLoopSN_panic os p c hc s hallBefore

/-! ### Claim theorems -/

/-- C1: for every valid timetable and every doubly-bounded subtrahend
`(Some(os), Some(oe))` with `os ≤ oe`, `subtract_timeslot` rewrites each
stored interval independently according to the spec's classification table
(`specFragSS`): untouched on `(Before,Before)`/`(After,After)`, removed on
`(Before,After)`, right-trimmed to `(Some(oe), e.end)` on `(Before,Contains)`
unless `oe = e.end`, left-trimmed to `(e.start, Some(os))` on
`(Contains,After)` unless `e.start = Some(os)`, split into both fragments in
order on `(Contains,Contains)` with each zero-width fragment dropped, every
surviving fragment keeping the original metadata. -/
theorem subtract_bounded_follows_spec_table (l : List (TimeSlot M)) (os oe : Time)
    (mo : N) (hv : Valid l) (hle : os ≤ oe) :
    TimeTable.subtract_timeslot l (⟨some os, some oe, mo⟩ : TimeSlot N) =
      some (l.flatMap (specFragSS os oe)) :=
  subtract_SS_eq l os oe hle hv.1 mo

/-- Witness for the C1 theorem: the spec's Scenario 3, subtracting
`(10:00, 10:30)` from `[(9:00, 11:00)]` (in minutes). -/
theorem subtract_bounded_follows_spec_table_witness :
    Valid [(⟨some 540, some 660, ()⟩ : TimeSlot Unit)] ∧ (600 : Time) ≤ 630 ∧
    TimeTable.subtract_timeslot [(⟨some 540, some 660, ()⟩ : TimeSlot Unit)]
        (⟨some 600, some 630, ()⟩ : TimeSlot Unit) =
      some ([(⟨some 540, some 660, ()⟩ : TimeSlot Unit)].flatMap (specFragSS 600 630)) :=
  ⟨by decide, by decide,
    subtract_bounded_follows_spec_table [⟨some 540, some 660, ()⟩] 600 630 ()
      (by decide) (by decide)⟩

/-- C2: evaluation at a failing input. Subtracting `(Some 2, None)` from the
valid timetable `[(1, 3)]` panics in the duplicated `remove(i)` of
`schedule.rs` line 221, so no result timetable exists to satisfy the
invariants. -/
theorem subtract_invariant_panic_eval :
    Valid [(⟨some 1, some 3, ()⟩ : TimeSlot Unit)] ∧
    TimeTable.subtract_timeslot [(⟨some 1, some 3, ()⟩ : TimeSlot Unit)]
        (⟨some 2, none, ()⟩ : TimeSlot Unit) = none := by
  decide

/-- C3: evaluation at a failing input. The claim (and the spec) says
subtracting `(Some 5, None)` from `[(0, 10)]` should right-trim the slot to
`(0, 5)`; the code instead panics in the duplicated `remove(i)` of
`schedule.rs` line 221 (modelled as `none`). -/
theorem subtract_open_ended_panic_eval :
    Valid [(⟨some 0, some 10, ()⟩ : TimeSlot Unit)] ∧
    TimeTable.subtract_timeslot [(⟨some 0, some 10, ()⟩ : TimeSlot Unit)]
        (⟨some 5, none, ()⟩ : TimeSlot Unit) = none ∧
    TimeTable.subtract_timeslot [(⟨some 0, some 10, ()⟩ : TimeSlot Unit)]
        (⟨some 5, none, ()⟩ : TimeSlot Unit) ≠
      some [(⟨some 0, some 5, ()⟩ : TimeSlot Unit)] := by
  decide

/-- C4: evaluation at a failing input. `subtract_timeslot` is not
panic-free for all four subtrahend shapes: the `(Some, None)` shape panics
on the valid timetable `[(0, 4)]` with subtrahend `(Some 1, None)`. -/
theorem subtract_not_total_eval :
    Valid [(⟨some 0, some 4, ()⟩ : TimeSlot Unit)] ∧
    TimeTable.subtract_timeslot [(⟨some 0, some 4, ()⟩ : TimeSlot Unit)]
        (⟨some 1, none, ()⟩ : TimeSlot Unit) = none := by
  decide

/-- Per-element action of subtracting the zero-width interval `(t, t)`:
an interval containing `t` splits into the touching halves
`(e.start, Some(t))` and `(Some(t), e.end)` (each dropped when zero-width);
all other intervals are unchanged. -/
def zeroWidthFrag (t : Time) (e : TimeSlot M) : List (TimeSlot M) :=
  match e.compare_datetime t with
  | .Contains =>
      (if e.start = some t then [] else [⟨e.start, some t, e.meta⟩]) ++
      (if e.endt = some t then [] else [⟨some t, e.endt, e.meta⟩])
  | _ => [e]

theorem specFragSS_self (t : Time) (e : TimeSlot M) :
    specFragSS t t e = zeroWidthFrag t e := by
  unfold specFragSS zeroWidthFrag
  rcases h : e.compare_datetime t with _ | _ | _ <;> simp [h]

/-- C7 counterexample: subtracting the zero-width interval `(5, 5)` from the
valid timetable `[(0, 10)]` is not a no-op — it splits the slot into
`[(0, 5), (5, 10)]`. -/
theorem subtract_zero_width_not_noop :
    Valid [(⟨some 0, some 10, ()⟩ : TimeSlot Unit)] ∧
    TimeTable.subtract_timeslot [(⟨some 0, some 10, ()⟩ : TimeSlot Unit)]
        (⟨some 5, some 5, ()⟩ : TimeSlot Unit) ≠
      some [(⟨some 0, some 10, ()⟩ : TimeSlot Unit)] := by
  decide

/-- C7 (amended): subtracting the zero-width interval `(Some(t), Some(t))`
from a valid timetable replaces each stored interval containing `t` by its
two touching halves at `t` (each half dropped when zero-width, so intervals
merely touching `t` at a bound are unchanged) and leaves every other
interval untouched; it is a no-op exactly on intervals not strictly
containing `t`. -/
theorem subtract_zero_width_splits (l : List (TimeSlot M)) (t : Time) (mo : N)
    (hv : Valid l) :
    TimeTable.subtract_timeslot l (⟨some t, some t, mo⟩ : TimeSlot N) =
      some (l.flatMap (zeroWidthFrag t)) := by
  rw [subtract_SS_eq l t t le_rfl hv.1 mo]
  have hfun : specFragSS (M := M) t t = zeroWidthFrag t :=
    funext fun e => specFragSS_self t e
  rw [hfun]

/-- Witness for the amended C7 theorem at the counterexample input. -/
theorem subtract_zero_width_splits_witness :
    Valid [(⟨some 0, some 10, ()⟩ : TimeSlot Unit)] ∧
    TimeTable.subtract_timeslot [(⟨some 0, some 10, ()⟩ : TimeSlot Unit)]
        (⟨some 5, some 5, ()⟩ : TimeSlot Unit) =
      some ([(⟨some 0, some 10, ()⟩ : TimeSlot Unit)].flatMap (zeroWidthFrag 5)) :=
  ⟨by decide, subtract_zero_width_splits [⟨some 0, some 10, ()⟩] 5 () (by decide)⟩

/-- The spec's retention predicate for `subtract_less_duration`: keep an
interval when its duration is defined and at least the minimum, or when its
duration is undefined (an unbounded interval). -/
def specKeeps (d : Time) (ts : TimeSlot M) : Prop :=
  (∃ dur, ts.duration = some dur ∧ d ≤ dur) ∨ ts.duration = none

instance specKeepsDecidable (d : Time) (ts : TimeSlot M) : Decidable (specKeeps d ts) :=
  match h : ts.duration with
  | none => isTrue (Or.inr h)
  | some dur =>
      if hle : d ≤ dur then isTrue (Or.inl ⟨dur, h, hle⟩)
      else
        isFalse (by
          rintro (⟨du, hdu, hle2⟩ | hnone)
          · rw [h] at hdu
            cases hdu
            exact hle hle2
          · rw [h] at hnone
            cases hnone)

/-- C9: `subtract_less_duration(d)` retains exactly the intervals satisfying
the spec's predicate (`specKeeps`), preserving order and metadata of the
survivors. -/
theorem subtract_less_duration_follows_spec (d : Time) (l : List (TimeSlot M)) :
    TimeTable.subtract_less_duration d l =
      l.filter fun ts => decide (specKeeps d ts) := by
  unfold TimeTable.subtract_less_duration
  apply List.filter_congr
  intro a _
  rcases h : a.duration with _ | dur <;> simp [specKeeps, h]

/-- C10: `subtract_weekends` and `subtract_after_hours` panic while
extracting the timetable's last timestamp — before any subtraction — when
the timetable is empty or its last slot has both bounds absent.
The first argument of each operation is the clock-derived seed
(Saturday midnight resp. today's midnight). -/
theorem policy_ops_require_last_timestamp (sat today : Time) (l : List (TimeSlot M))
    (h : l = [] ∨ ∃ ts, l.getLast? = some ts ∧ ts.start = none ∧ ts.endt = none) :
    TimeTable.subtract_weekends sat l = none ∧
    TimeTable.subtract_after_hours today l = none := by
  have hlast : TimeTable.lastTime l = none := by
    rcases h with rfl | ⟨ts, hts, h1, h2⟩
    · rfl
    · unfold TimeTable.lastTime
      rw [hts]
      simp [h1, h2]
  constructor
  · unfold TimeTable.subtract_weekends
    rw [hlast]
    rfl
  · unfold TimeTable.subtract_after_hours
    rw [hlast]
    rfl

/-- Witness for the C10 theorem: the one-slot timetable `[(None, None)]`. -/
theorem policy_ops_require_last_timestamp_witness :
    ([(⟨none, none, ()⟩ : TimeSlot Unit)] = [] ∨
      ∃ ts, ([(⟨none, none, ()⟩ : TimeSlot Unit)]).getLast? = some ts ∧
        ts.start = none ∧ ts.endt = none) ∧
    TimeTable.subtract_weekends 0 [(⟨none, none, ()⟩ : TimeSlot Unit)] = none ∧
    TimeTable.subtract_after_hours 0 [(⟨none, none, ()⟩ : TimeSlot Unit)] = none :=
  ⟨Or.inr ⟨⟨none, none, ()⟩, rfl, rfl, rfl⟩,
    policy_ops_require_last_timestamp 0 0 [⟨none, none, ()⟩]
      (Or.inr ⟨⟨none, none, ()⟩, rfl, rfl, rfl⟩)⟩

/-! ### Inversion -/

/-- The spec's gap list: for each adjacent pair `(a, b)` in order, the gap
`(a.end, b.start)` exactly when `a.end` differs from `b.start`. -/
def specGapPairs (l : List (TimeSlot M)) : List (TimeSlot Unit) :=
  (l.zip l.tail).filterMap fun p =>
    if p.1.endt = p.2.start then none else some ⟨p.1.endt, p.2.start, ()⟩

/-- The spec's description of inversion: `[(None, None)]` for an empty
input; empty for the single fully-unbounded interval; otherwise a leading
gap when the first start is present, the adjacent-pair gaps, and a trailing
gap when the last end is present, all metadata discarded. -/
def specInverted (l : List (TimeSlot M)) : List (TimeSlot Unit) :=
  match l with
  | [] => [⟨none, none, ()⟩]
  | first :: rest =>
      if first.start = none ∧ first.endt = none ∧ rest.length = 0 then []
      else
        (match first.start with
          | some dt => [(⟨none, some dt, ()⟩ : TimeSlot Unit)]
          | none => []) ++
        specGapPairs (first :: rest) ++
        (match ((first :: rest).getLast (List.cons_ne_nil first rest)).endt with
          | some dt => [(⟨some dt, none, ()⟩ : TimeSlot Unit)]
          | none => [])

theorem windowGaps_eq_specGapPairs (l : List (TimeSlot M)) :
    TimeTable.windowGaps l = specGapPairs l := by
  induction l with
  | nil => rfl
  | cons a l ih =>
      rcases l with _ | ⟨b, rest⟩
      · rfl
      · rw [TimeTable.windowGaps]
        unfold specGapPairs
        rw [List.tail_cons, List.zip_cons_cons, List.filterMap_cons]
        by_cases hc : a.endt = b.start
        · rw [if_neg (by simpa using hc), if_pos hc]
          simpa [specGapPairs] using ih
        · rw [if_pos hc, if_neg (by simpa using hc)]
          simpa [specGapPairs] using ih

/-- C5: `inverted` computes exactly the spec's description (`specInverted`)
on every timetable: the `(None, None)` singleton for empty input, empty for
the single doubly-unbounded interval, otherwise leading gap, adjacent-pair
gaps for pairs with distinct touching bounds, and trailing gap, with all
metadata discarded. -/
theorem inverted_follows_spec (l : List (TimeSlot M)) :
    TimeTable.inverted l = specInverted l := by
  rcases l with _ | ⟨ts, rest⟩
  · rfl
  · rw [TimeTable.inverted, specInverted]
    by_cases hguard : ts.start = none ∧ ts.endt = none ∧ rest.length = 0
    · obtain ⟨h1, h2, h3⟩ := hguard
      have h4 : rest = [] := List.length_eq_zero.mp h3
      subst h4
      rw [if_pos (show ts.start = none ∧ ts.endt = none ∧
        ([] : List (TimeSlot M)).length = 0 from ⟨h1, h2, rfl⟩)]
      rw [if_pos (by simp [h1, h2])]
    · rw [if_neg hguard]
      have hbool : ¬ ((rest.isEmpty && ts.start.isNone && ts.endt.isNone) = true) := by
        intro hb
        simp only [Bool.and_eq_true, List.isEmpty_iff, Option.isNone_iff_eq_none] at hb
        exact hguard ⟨hb.1.2, hb.2, by simp [hb.1.1]⟩
      rw [if_neg hbool, windowGaps_eq_specGapPairs]

/-! ### Double inversion -/

/-- Metadata erasure (inversion returns unit metadata). -/
def eraseMeta (ts : TimeSlot M) : TimeSlot Unit := ⟨ts.start, ts.endt, ()⟩

/-- No leading or trailing unbounded interval: every bound is present.
(In a valid timetable only the outermost bounds may be absent, so this is
exactly "no unbounded interval at the very ends".) -/
def allBounded (l : List (TimeSlot M)) : Prop :=
  ∀ ts ∈ l, ts.start ≠ none ∧ ts.endt ≠ none

/-- Saturation: no two consecutive intervals merely touch, so every
boundary stays visible in the inverted gap list and can be recreated by
inverting back. -/
def saturated (l : List (TimeSlot M)) : Prop :=
  l.Chain' fun a b => a.endt ≠ b.start

instance (l : List (TimeSlot M)) : Decidable (allBounded l) :=
  inferInstanceAs (Decidable (∀ ts ∈ l, ts.start ≠ none ∧ ts.endt ≠ none))

theorem windowGaps_roundtrip (rest : List (TimeSlot M)) :
    ∀ (a : TimeSlot M) (x : Option Time) (sa eL : Time),
      a.start = some sa →
      ((a :: rest).getLast (List.cons_ne_nil a rest)).endt = some eL →
      (∀ ts ∈ a :: rest, ts.start ≠ none ∧ ts.endt ≠ none) →
      (∀ ts ∈ a :: rest, slotWF ts = true) →
      List.Chain' (fun u v => u.endt ≠ v.start) (a :: rest) →
      TimeTable.windowGaps ((⟨x, some sa, ()⟩ : TimeSlot Unit) ::
          (TimeTable.windowGaps (a :: rest) ++ [(⟨some eL, none, ()⟩ : TimeSlot Unit)])) =
        (a :: rest).map eraseMeta := by
  induction rest with
  | nil =>
      intro a x sa eL hsa hlast hb hwf hsat
      have hlast2 : a.endt = some eL := by simpa using hlast
      have hne : sa ≠ eL := ne_of_lt (slotWF_lt (hwf a (by simp)) hsa hlast2)
      show TimeTable.windowGaps
          [(⟨x, some sa, ()⟩ : TimeSlot Unit), ⟨some eL, none, ()⟩] = _
      rw [TimeTable.windowGaps]
      simp [TimeTable.windowGaps, eraseMeta, hsa, hlast2, hne]
  | cons b rest2 ih =>
      intro a x sa eL hsa hlast hb hwf hsat
      obtain ⟨sb, hsb⟩ := Option.ne_none_iff_exists'.mp (hb b (by simp)).1
      obtain ⟨ea, hea⟩ := Option.ne_none_iff_exists'.mp (hb a (by simp)).2
      obtain ⟨hsat1, hsat2⟩ := List.chain'_cons.mp hsat
      have htouch : a.endt ≠ b.start := hsat1
      have hlast2 : ((b :: rest2).getLast (List.cons_ne_nil b rest2)).endt = some eL := by
        rw [← hlast]
        congr 1
      have hgaps : TimeTable.windowGaps (a :: b :: rest2) =
          (⟨a.endt, b.start, ()⟩ : TimeSlot Unit) :: TimeTable.windowGaps (b :: rest2) := by
        rw [TimeTable.windowGaps, if_pos htouch]
        rfl
      rw [hgaps]
      have hlt : sa < ea := slotWF_lt (hwf a (by simp)) hsa hea
      show TimeTable.windowGaps ((⟨x, some sa, ()⟩ : TimeSlot Unit) ::
          (⟨a.endt, b.start, ()⟩ : TimeSlot Unit) ::
          (TimeTable.windowGaps (b :: rest2) ++ [(⟨some eL, none, ()⟩ : TimeSlot Unit)])) = _
      rw [TimeTable.windowGaps]
      have hne : (some sa : Option Time) ≠ a.endt := by
        rw [hea]
        intro hcon
        exact absurd (Option.some.inj hcon) (ne_of_lt hlt)
      rw [if_pos (by simpa using hne)]
      rw [hsb]
      rw [ih b a.endt sb eL hsb hlast2
        (fun ts hts => hb ts (by simp [hts]))
        (fun ts hts => hwf ts (by simp [hts])) hsat2]
      simp [eraseMeta, hsa, hea, hsb]

theorem getLast_cons_append_last (c : TimeSlot M) (w : List (TimeSlot M)) (z : TimeSlot M) :
    (c :: (w ++ [z])).getLast (List.cons_ne_nil c (w ++ [z])) = z := by
  have h1 : (c :: (w ++ [z])).getLast? = some z := by
    have h : c :: (w ++ [z]) = (c :: w) ++ [z] := by simp
    rw [h, List.getLast?_concat]
  have h2 := List.getLast?_eq_getLast (c :: (w ++ [z])) (List.cons_ne_nil c (w ++ [z]))
  rw [h2] at h1
  exact Option.some.inj h1

/-- C6: for a valid timetable with every bound present (no leading or
trailing unbounded interval) that is saturated (no two consecutive
intervals merely touch, so its gaps recreate exactly the original
boundaries when inverted back), inverting twice returns the original
sequence of bound pairs with metadata erased. -/
theorem inverted_involution (l : List (TimeSlot M)) (hv : Valid l)
    (hb : allBounded l) (hsat : saturated l) :
    TimeTable.inverted (TimeTable.inverted l) = l.map eraseMeta := by
  rcases l with _ | ⟨a, rest⟩
  · rfl
  · obtain ⟨sa, hsa⟩ := Option.ne_none_iff_exists'.mp (hb a (by simp)).1
    have hlastmem : (a :: rest).getLast (List.cons_ne_nil a rest) ∈ a :: rest :=
      List.getLast_mem (List.cons_ne_nil a rest)
    obtain ⟨eL, heL⟩ := Option.ne_none_iff_exists'.mp (hb _ hlastmem).2
    have hinv1 : TimeTable.inverted (a :: rest) =
        (⟨none, some sa, ()⟩ : TimeSlot Unit) ::
          (TimeTable.windowGaps (a :: rest) ++ [(⟨some eL, none, ()⟩ : TimeSlot Unit)]) := by
      rw [TimeTable.inverted]
      rw [if_neg (by simp [hsa])]
      rw [hsa, heL]
      simp
    rw [hinv1]
    rw [TimeTable.inverted]
    rw [if_neg (by simp)]
    rw [getLast_cons_append_last]
    have hr := windowGaps_roundtrip rest a none sa eL hsa heL hb hv.1 hsat
    simpa using hr

/-- Witness for the C6 theorem: `[(1, 2), (3, 4)]`. -/
theorem inverted_involution_witness :
    Valid [(⟨some 1, some 2, ()⟩ : TimeSlot Unit), ⟨some 3, some 4, ()⟩] ∧
    allBounded [(⟨some 1, some 2, ()⟩ : TimeSlot Unit), ⟨some 3, some 4, ()⟩] ∧
    saturated [(⟨some 1, some 2, ()⟩ : TimeSlot Unit), ⟨some 3, some 4, ()⟩] ∧
    TimeTable.inverted (TimeTable.inverted
        [(⟨some 1, some 2, ()⟩ : TimeSlot Unit), ⟨some 3, some 4, ()⟩]) =
      ([(⟨some 1, some 2, ()⟩ : TimeSlot Unit), ⟨some 3, some 4, ()⟩]).map eraseMeta :=
  ⟨by decide, by decide, by simp [saturated],
    inverted_involution [⟨some 1, some 2, ()⟩, ⟨some 3, some 4, ()⟩]
      (by decide) (by decide) (by simp [saturated])⟩

/-! ### Idempotence of subtraction -/

theorem compare_of_contains2 {b : TimeSlot M} {t : Time}
    (hstart : ∀ bs, b.start = some bs → bs ≤ t)
    (hend : ∀ be, b.endt = some be → t ≤ be) :
    b.compare_datetime t = .Contains := by
  unfold TimeSlot.compare_datetime
  rcases hbs : b.start with _ | bs <;> rcases hbe : b.endt with _ | be
  · rfl
  · simp [hend be hbe]
  · simp [hstart bs hbs]
  · simp [hstart bs hbs, hend be hbe]

theorem compare_of_after2 {b : TimeSlot M} {be t : Time}
    (hbe : b.endt = some be) (hlt : be < t)
    (hstart : ∀ bs, b.start = some bs → bs ≤ be) :
    b.compare_datetime t = .After := by
  have h1 : ¬ (t ≤ be) := not_le.mpr hlt
  unfold TimeSlot.compare_datetime
  rcases hbs : b.start with _ | bs
  · rw [hbe]
    simp [h1]
  · have h2 : bs ≤ be := hstart bs hbs
    have h3 : ¬ (t < bs) := not_lt.mpr (by linarith)
    rw [hbe]
    simp [h1, h3]

/-- A left-trim fragment `(e.start, Some(os))` of an interval containing
`os` is left unchanged by a second subtraction of `(os, oe)`. -/
theorem leftFrag_fixed (os oe : Time) (hle : os ≤ oe) (e : TimeSlot M)
    (h1 : e.compare_datetime os = .Contains) (hne : e.start ≠ some os) :
    specFragSS os oe (⟨e.start, some os, e.meta⟩ : TimeSlot M) =
      [⟨e.start, some os, e.meta⟩] := by
  have hcos : (⟨e.start, some os, e.meta⟩ : TimeSlot M).compare_datetime os = .Contains := by
    apply compare_of_contains2
    · intro bs hbs
      exact compare_contains_start h1 bs hbs
    · intro be hbe
      cases hbe
      exact le_rfl
  rcases lt_or_eq_of_le hle with hlt | heq
  · have hcoe : (⟨e.start, some os, e.meta⟩ : TimeSlot M).compare_datetime oe = .After := by
      apply compare_of_after2 rfl hlt
      intro bs hbs
      exact compare_contains_start h1 bs hbs
    unfold specFragSS
    rw [hcos, hcoe]
    simp [hne]
  · subst heq
    unfold specFragSS
    rw [hcos]
    simp [hne]

/-- A right-trim fragment `(Some(oe), e.end)` of an interval containing
`oe` is left unchanged by a second subtraction of `(os, oe)`. -/
theorem rightFrag_fixed (os oe : Time) (hle : os ≤ oe) (e : TimeSlot M)
    (h2 : e.compare_datetime oe = .Contains) (hne : e.endt ≠ some oe) :
    specFragSS os oe (⟨some oe, e.endt, e.meta⟩ : TimeSlot M) =
      [⟨some oe, e.endt, e.meta⟩] := by
  have hcoe : (⟨some oe, e.endt, e.meta⟩ : TimeSlot M).compare_datetime oe = .Contains := by
    apply compare_of_contains2
    · intro bs hbs
      cases hbs
      exact le_rfl
    · intro be hbe
      exact compare_contains_end h2 be hbe
  rcases lt_or_eq_of_le hle with hlt | heq
  · have hcos : (⟨some oe, e.endt, e.meta⟩ : TimeSlot M).compare_datetime os = .Before :=
      compare_of_before rfl hlt
    unfold specFragSS
    rw [hcos, hcoe]
    simp [hne]
  · subst heq
    unfold specFragSS
    rw [hcoe]
    simp [hne]

/-- Acting twice with the spec table for `(Some(os), Some(oe))` is the same
as acting once, per element. -/
theorem specFragSS_idem (os oe : Time) (hle : os ≤ oe) (e : TimeSlot M) :
    (specFragSS os oe e).flatMap (specFragSS os oe) = specFragSS os oe e := by
  rcases h1 : e.compare_datetime os with _ | _ | _ <;>
    rcases h2 : e.compare_datetime oe with _ | _ | _
  · -- Before, Before
    have hval : specFragSS os oe e = [e] := by
      unfold specFragSS
      rw [h1, h2]
    rw [hval]
    simpa using hval
  · -- Before, Contains
    by_cases hne : e.endt = some oe
    · have hval : specFragSS os oe e = [] := by
        unfold specFragSS
        rw [h1, h2]
        simp [hne]
      rw [hval]
      simp
    · have hval : specFragSS os oe e =
          [(⟨some oe, e.endt, e.meta⟩ : TimeSlot M)] := by
        unfold specFragSS
        rw [h1, h2]
        simp [hne]
      rw [hval]
      simpa using rightFrag_fixed os oe hle e h2 hne
  · -- Before, After
    have hval : specFragSS os oe e = [] := by
      unfold specFragSS
      rw [h1, h2]
    rw [hval]
    simp
  · -- Contains, Before (wildcard row)
    have hval : specFragSS os oe e = [] := by
      unfold specFragSS
      rw [h1, h2]
    rw [hval]
    simp
  · -- Contains, Contains
    by_cases hne1 : e.start = some os <;> by_cases hne2 : e.endt = some oe
    · have hval : specFragSS os oe e = [] := by
        unfold specFragSS
        rw [h1, h2]
        simp [hne1, hne2]
      rw [hval]
      simp
    · have hval : specFragSS os oe e =
          [(⟨some oe, e.endt, e.meta⟩ : TimeSlot M)] := by
        unfold specFragSS
        rw [h1, h2]
        simp [hne1, hne2]
      rw [hval]
      simpa using rightFrag_fixed os oe hle e h2 hne2
    · have hval : specFragSS os oe e =
          [(⟨e.start, some os, e.meta⟩ : TimeSlot M)] := by
        unfold specFragSS
        rw [h1, h2]
        simp [hne1, hne2]
      rw [hval]
      simpa using leftFrag_fixed os oe hle e h1 hne1
    · have hval : specFragSS os oe e =
          [(⟨e.start, some os, e.meta⟩ : TimeSlot M),
            (⟨some oe, e.endt, e.meta⟩ : TimeSlot M)] := by
        unfold specFragSS
        rw [h1, h2]
        simp [hne1, hne2]
      rw [hval]
      have hl := leftFrag_fixed os oe hle e h1 hne1
      have hr := rightFrag_fixed os oe hle e h2 hne2
      simp only [List.flatMap_cons, List.flatMap_nil, List.append_nil, hl, hr]
      rfl
  · -- Contains, After
    by_cases hne : e.start = some os
    · have hval : specFragSS os oe e = [] := by
        unfold specFragSS
        rw [h1, h2]
        simp [hne]
      rw [hval]
      simp
    · have hval : specFragSS os oe e =
          [(⟨e.start, some os, e.meta⟩ : TimeSlot M)] := by
        unfold specFragSS
        rw [h1, h2]
        simp [hne]
      rw [hval]
      simpa using leftFrag_fixed os oe hle e h1 hne
  · -- After, Before (wildcard row)
    have hval : specFragSS os oe e = [] := by
      unfold specFragSS
      rw [h1, h2]
    rw [hval]
    simp
  · -- After, Contains (wildcard row)
    have hval : specFragSS os oe e = [] := by
      unfold specFragSS
      rw [h1, h2]
    rw [hval]
    simp
  · -- After, After
    have hval : specFragSS os oe e = [e] := by
      unfold specFragSS
      rw [h1, h2]
    rw [hval]
    simpa using hval

theorem specFragNE_idem (oe : Time) (e : TimeSlot M) :
    (specFragNE oe e).flatMap (specFragNE oe) = specFragNE oe e := by
  rcases h : e.compare_datetime oe with _ | _ | _
  · have hval : specFragNE oe e = [e] := by
      unfold specFragNE
      rw [h]
    rw [hval]
    simpa using hval
  · by_cases hne : e.endt = some oe
    · have hval : specFragNE oe e = [] := by
        unfold specFragNE
        rw [h]
        simp [hne]
      rw [hval]
      simp
    · have hval : specFragNE oe e = [(⟨some oe, e.endt, e.meta⟩ : TimeSlot M)] := by
        unfold specFragNE
        rw [h]
        simp [hne]
      rw [hval]
      have hc : (⟨some oe, e.endt, e.meta⟩ : TimeSlot M).compare_datetime oe = .Contains := by
        apply compare_of_contains2
        · intro bs hbs
          cases hbs
          exact le_rfl
        · intro be hbe
          exact compare_contains_end h be hbe
      have hfix : specFragNE oe (⟨some oe, e.endt, e.meta⟩ : TimeSlot M) =
          [(⟨some oe, e.endt, e.meta⟩ : TimeSlot M)] := by
        unfold specFragNE
        rw [hc]
        simp [hne]
      simpa using hfix
  · have hval : specFragNE oe e = [] := by
      unfold specFragNE
      rw [h]
    rw [hval]
    simp

theorem fragSN_mem {os : Time} {e a : TimeSlot M} (h : a ∈ fragSN os e) :
    a = e ∧ e.compare_datetime os = .After := by
  unfold fragSN at h
  rcases hc : e.compare_datetime os with _ | _ | _ <;> rw [hc] at h <;> simp at h
  exact ⟨h, rfl⟩

theorem fragSN_idem (os : Time) (e : TimeSlot M) :
    (fragSN os e).flatMap (fragSN os) = fragSN os e := by
  rcases h : e.compare_datetime os with _ | _ | _
  · have hval : fragSN os e = [] := by
      unfold fragSN
      rw [h]
    rw [hval]
    simp
  · have hval : fragSN os e = [] := by
      unfold fragSN
      rw [h]
    rw [hval]
    simp
  · have hval : fragSN os e = [e] := by
      unfold fragSN
      rw [h]
    rw [hval]
    simpa using hval

theorem leftFrag_wf (os : Time) (e : TimeSlot M)
    (h1 : e.compare_datetime os = .Contains) (hne : e.start ≠ some os) :
    slotWF (⟨e.start, some os, e.meta⟩ : TimeSlot M) = true := by
  unfold slotWF
  rcases hs : e.start with _ | s
  · rfl
  · have hle := compare_contains_start h1 s hs
    have hne2 : s ≠ os := by
      intro hcon
      exact hne (by rw [hs, hcon])
    simp [lt_of_le_of_ne hle hne2]

theorem rightFrag_wf (oe : Time) (e : TimeSlot M)
    (h2 : e.compare_datetime oe = .Contains) (hne : e.endt ≠ some oe) :
    slotWF (⟨some oe, e.endt, e.meta⟩ : TimeSlot M) = true := by
  unfold slotWF
  rcases he : e.endt with _ | en
  · rfl
  · have hle := compare_contains_end h2 en he
    have hne2 : oe ≠ en := by
      intro hcon
      exact hne (by rw [he, hcon])
    simp [lt_of_le_of_ne hle hne2]

theorem specFragSS_wf (os oe : Time) (e : TimeSlot M) (hwf : slotWF e = true) :
    ∀ f ∈ specFragSS os oe e, slotWF f = true := by
  intro f hf
  unfold specFragSS at hf
  rcases h1 : e.compare_datetime os with _ | _ | _ <;>
    rcases h2 : e.compare_datetime oe with _ | _ | _ <;>
    rw [h1, h2] at hf <;> simp only [List.mem_singleton, List.mem_append] at hf
  · rw [hf]
    exact hwf
  · rcases hne : decide (e.endt = some oe) with _ | _
    · rw [if_neg (of_decide_eq_false hne)] at hf
      simp at hf
      rw [hf]
      exact rightFrag_wf oe e h2 (of_decide_eq_false hne)
    · rw [if_pos (of_decide_eq_true hne)] at hf
      cases hf
  · cases hf
  · cases hf
  · rcases hf with hf | hf
    · rcases hne : decide (e.start = some os) with _ | _
      · rw [if_neg (of_decide_eq_false hne)] at hf
        simp at hf
        rw [hf]
        exact leftFrag_wf os e h1 (of_decide_eq_false hne)
      · rw [if_pos (of_decide_eq_true hne)] at hf
        cases hf
    · rcases hne : decide (e.endt = some oe) with _ | _
      · rw [if_neg (of_decide_eq_false hne)] at hf
        simp at hf
        rw [hf]
        exact rightFrag_wf oe e h2 (of_decide_eq_false hne)
      · rw [if_pos (of_decide_eq_true hne)] at hf
        cases hf
  · rcases hne : decide (e.start = some os) with _ | _
    · rw [if_neg (of_decide_eq_false hne)] at hf
      simp at hf
      rw [hf]
      exact leftFrag_wf os e h1 (of_decide_eq_false hne)
    · rw [if_pos (of_decide_eq_true hne)] at hf
      cases hf
  · cases hf
  · cases hf
  · rw [hf]
    exact hwf

theorem flatMap_congr_mem {f g : TimeSlot M → List (TimeSlot M)}
    (l : List (TimeSlot M)) (h : ∀ a ∈ l, f a = g a) :
    l.flatMap f = l.flatMap g := by
  induction l with
  | nil => rfl
  | cons a l ih =>
      simp only [List.flatMap_cons, h a (by simp),
        ih fun x hx => h x (by simp [hx])]

/-- C8: on a valid timetable, subtracting the same interval (start not
exceeding end where both bounds are present) twice yields the same result
as subtracting it once; in the panicking `(Some, None)` cases both the
single and the double application panic alike. -/
theorem subtract_idempotent (l : List (TimeSlot M)) (s : TimeSlot N) (hv : Valid l)
    (hs : ∀ a b, s.start = some a → s.endt = some b → a ≤ b) :
    (TimeTable.subtract_timeslot l s).bind
        (fun l2 => TimeTable.subtract_timeslot l2 s) =
      TimeTable.subtract_timeslot l s := by
  obtain ⟨sst, sen, sm⟩ := s
  rcases sst with _ | os <;> rcases sen with _ | oe
  · rfl
  · rw [subtract_NE_eq l oe sm]
    simp only [Option.some_bind]
    rw [subtract_NE_eq _ oe sm, List.flatMap_assoc]
    congr 1
    exact flatMap_congr_mem l fun a _ => specFragNE_idem oe a
  · by_cases hex : ∃ a ∈ l, a.compare_datetime os = RelTime.Contains
    · rw [subtract_SN_panic l os hv hex sm]
      rfl
    · push_neg at hex
      rw [subtract_SN_eq_of_no_contains l os hex sm]
      simp only [Option.some_bind]
      have hnc2 : ∀ a ∈ l.flatMap (fragSN os),
          a.compare_datetime os ≠ RelTime.Contains := by
        intro a ha
        obtain ⟨e, he, hae⟩ := List.mem_flatMap.mp ha
        obtain ⟨rfl, hAfter⟩ := fragSN_mem hae
        simp [hAfter]
      rw [subtract_SN_eq_of_no_contains _ os hnc2 sm, List.flatMap_assoc]
      congr 1
      exact flatMap_congr_mem l fun a _ => fragSN_idem os a
  · have hle : os ≤ oe := hs os oe rfl rfl
    rw [subtract_SS_eq l os oe hle hv.1 sm]
    simp only [Option.some_bind]
    have hwf2 : ∀ a ∈ l.flatMap (specFragSS os oe), slotWF a = true := by
      intro a ha
      obtain ⟨e, he, hae⟩ := List.mem_flatMap.mp ha
      exact specFragSS_wf os oe e (hv.1 e he) a hae
    rw [subtract_SS_eq _ os oe hle hwf2 sm, List.flatMap_assoc]
    congr 1
    exact flatMap_congr_mem l fun a _ => specFragSS_idem os oe hle a

/-- Witness for the C8 theorem: subtracting `(2, 4)` from `[(0, 10)]`
twice. -/
theorem subtract_idempotent_witness :
    Valid [(⟨some 0, some 10, ()⟩ : TimeSlot Unit)] ∧
    (TimeTable.subtract_timeslot [(⟨some 0, some 10, ()⟩ : TimeSlot Unit)]
          (⟨some 2, some 4, ()⟩ : TimeSlot Unit)).bind
        (fun l2 => TimeTable.subtract_timeslot l2 (⟨some 2, some 4, ()⟩ : TimeSlot Unit)) =
      TimeTable.subtract_timeslot [(⟨some 0, some 10, ()⟩ : TimeSlot Unit)]
        (⟨some 2, some 4, ()⟩ : TimeSlot Unit) :=
  ⟨by decide,
    subtract_idempotent [⟨some 0, some 10, ()⟩] ⟨some 2, some 4, ()⟩ (by decide)
      (by
        intro a b ha hb
        obtain rfl : a = 2 := (Option.some.inj ha).symm
        obtain rfl : b = 4 := (Option.some.inj hb).symm
        decide)⟩

end Nanofab
